import Mathlib

/-!
Verification of the genetic-algorithm TSP solver (`solution.py`).

The Python program is shallowly embedded:
* `Point`, `Point.distance_to` model the frozen dataclass and its Euclidean
  distance (Python floats are modelled as real numbers);
* a world is the tuple `World.points`, modelled as a `List Point`;
* a candidate solution (`PossibleSolution`) is its `path`, a `List ℕ`;
* the methods of `EvolutionMachine` are modelled one by one below; random
  draws (`random()`, `randint`, `shuffle`) are passed in explicitly, so every
  theorem quantifies over all possible draws.
-/

/-- The frozen dataclass `Point`: two integer coordinates. -/
structure Point where
  x : ℤ
  y : ℤ
deriving DecidableEq

/-- Source `Point.distance_to`: Euclidean norm of the coordinate deltas
(`sqrt(deltaX*deltaX + deltaY*deltaY)`). -/
noncomputable def Point.distance_to (p other : Point) : ℝ :=
  Real.sqrt (((p.x - other.x) * (p.x - other.x) + (p.y - other.y) * (p.y - other.y) : ℤ) : ℝ)

/-- Source `World.COORDINATE_MAX`. -/
def COORDINATE_MAX : ℤ := 69420

/-- Source `PossibleSolution.cost`: the sum of `world.points[path[i]].distance_to(world.points[path[i+1]])`
over consecutive positions `i`, written as in the source via the pairs
`(path[i], path[i+1])` (`zip` of the path with its tail). -/
noncomputable def cost (world : List Point) (path : List ℕ) : ℝ :=
  ((path.zip path.tail).map (fun pq =>
    (world.getD pq.1 ⟨0, 0⟩).distance_to (world.getD pq.2 ⟨0, 0⟩))).sum

/-- Modelled from the spec words of C7: "sum of `world.distance(path[i], path[i+1])`
for i in 0..N-2", written as an indexed sum, to be compared with `cost`. -/
noncomputable def specCost (world : List Point) (path : List ℕ) : ℝ :=
  ((List.range (path.length - 1)).map (fun i =>
    (world.getD (path.getD i 0) ⟨0, 0⟩).distance_to
      (world.getD (path.getD (i + 1) 0) ⟨0, 0⟩))).sum

/-- A valid tour over a world of `n` points: a permutation of `{0, …, n-1}`
(length exactly `n`, no repeated index, every index in range). -/
def validTour (n : ℕ) (l : List ℕ) : Prop :=
  l.length = n ∧ l.Nodup ∧ ∀ x ∈ l, x < n

instance (n : ℕ) (l : List ℕ) : Decidable (validTour n l) := by
  unfold validTour; infer_instance

/-- The possible outcomes of `random.shuffle(list(range(n)))` in
`EvolutionMachine.__init__`: exactly the permutations of `[0, …, n-1]`. -/
def shuffleOutcome (n : ℕ) (l : List ℕ) : Prop :=
  l.Perm (List.range n)

instance (n : ℕ) (l : List ℕ) : Decidable (shuffleOutcome n l) := by
  unfold shuffleOutcome; infer_instance

/-- The possible outcomes of the initial-population loop of
`EvolutionMachine.__init__`: a list of pairwise-distinct shuffled paths
(`set` of `PossibleSolution`s) of size `populationSize`. -/
def initPopOutcome (n popSize : ℕ) (pop : List (List ℕ)) : Prop :=
  pop.Nodup ∧ pop.length = popSize ∧ ∀ t ∈ pop, shuffleOutcome n t

/-- The fill `while` loop inside `EvolutionMachine.__crossover`: starting from
`first`, repeatedly read `donor[i1 % n]`, append it if it is not already
present, and increment `i1`, until `first` has length `n`.  The Python loop is
unbounded; `fuel` bounds the number of iterations modelled, and `n` iterations
always suffice for permutation inputs (`crossFill_valid` shows the exit
condition is then reached). -/
def crossFill (donor : List ℕ) (n : ℕ) : List ℕ → ℕ → ℕ → List ℕ
  | first, _, 0 => first
  | first, i1, fuel + 1 =>
    if first.length < n then
      crossFill donor n
        (if donor.getD (i1 % n) 0 ∈ first then first else first ++ [donor.getD (i1 % n) 0])
        (i1 + 1) fuel
    else first

/-- Source `EvolutionMachine.__crossover` with cut point `i` (`randint(1, n-1)` in the
source): each child is a prefix of one parent filled cyclically from the other
parent starting at offset `i`. -/
def crossover (n : ℕ) (s1 s2 : List ℕ) (i : ℕ) : List ℕ × List ℕ :=
  (crossFill s2 n (s1.take i) i n, crossFill s1 n (s2.take i) i n)

/-- The inversion step of `EvolutionMachine.__mutation`:
`chromosomes[:a] + reversed(chromosomes[a:b+1]) + chromosomes[b+1:]`. -/
def invertSub (l : List ℕ) (a b : ℕ) : List ℕ :=
  l.take a ++ ((l.drop a).take (b + 1 - a)).reverse ++ l.drop (b + 1)

/-- Source `EvolutionMachine.STOP_CONDITION_SAME_COUNT`. -/
def STOP_CONDITION_SAME_COUNT : ℕ := 16

/-- Source `EvolutionMachine.MUTATION_CHANCE`. -/
noncomputable def MUTATION_CHANCE : ℝ := 0.1

/-- The population size chosen in `EvolutionMachine.__init__`:
`size**2 if size > 4 else factorial(size)`. -/
def populationSize (n : ℕ) : ℕ :=
  if n > 4 then n ^ 2 else n.factorial

/-- Source `selection_count` in `EvolutionMachine.__selection`:
`int(population_size * 0.5)`, rounded up to the next even number. -/
def selectionCount (popSize : ℕ) : ℕ :=
  if popSize / 2 % 2 = 1 then popSize / 2 + 1 else popSize / 2

/-- The random draws consumed by one `__next__` call: `sel k` models the
`random()` value of the k-th selection draw, `cut j` the `randint(1, N-1)`
cut of the j-th crossover pair, and `roll i`, `subStart i`, `subEnd i` the
mutation draws for the i-th child of the new generation. -/
structure RandDraws where
  sel : ℕ → ℝ
  cut : ℕ → ℕ
  roll : ℕ → ℝ
  subStart : ℕ → ℕ
  subEnd : ℕ → ℕ

/-- Source `EvolutionMachine.__fitness`: `sqrt(2) * len(world.points) - cost`. -/
noncomputable def fitness (world : List Point) (s : List ℕ) : ℝ :=
  Real.sqrt 2 * world.length - cost world s

/-- Source `self.population.sort(key=lambda s: self.__fitness(s))` in `__selection`:
a stable sort with the fitness values as ascending keys. -/
noncomputable def sortByFitness (world : List Point) (pop : List (List ℕ)) : List (List ℕ) :=
  pop.mergeSort (fun a b => decide (fitness world a ≤ fitness world b))

/-- The cumulative-probability loop of `__selection`: starting from
`prev = 0.0` and position `i = 0`, append `prev + fitnesses[i] / total`
`count` times (`count` is `population_size` in the source). -/
noncomputable def cumProbsAux (fitnesses : List ℝ) (total : ℝ) : ℝ → ℕ → ℕ → List ℝ
  | _, _, 0 => []
  | prev, i, count + 1 =>
    (prev + fitnesses.getD i 0 / total) ::
      cumProbsAux fitnesses total (prev + fitnesses.getD i 0 / total) (i + 1) count

/-- The `probabilites` list built in `__selection`. -/
noncomputable def probabilites (fitnesses : List ℝ) (total : ℝ) (count : ℕ) : List ℝ :=
  cumProbsAux fitnesses total 0 0 count

/-- The linear-scan `while` loop of `__selection`:
`while p > probabilites[selected_index] and selected_index < selection_count - 2`,
with `bound = selection_count - 2`. -/
noncomputable def selectScan (probs : List ℝ) (bound : ℕ) (idx : ℕ) (p : ℝ) : ℕ :=
  if h : p > probs.getD idx 0 ∧ idx < bound then selectScan probs bound (idx + 1) p else idx
termination_by bound - idx
decreasing_by obtain ⟨_, h2⟩ := h; omega

/-- Modelled from the spec words of C6: "the first index whose cumulative
probability meets or exceeds the sampled value". -/
noncomputable def specScanIndex (probs : List ℝ) (p : ℝ) : ℕ :=
  probs.findIdx (fun q => decide (p ≤ q))

/-- The cumulative distribution used by `__selection`: probabilities of the
fitness-sorted population. -/
noncomputable def selectionProbs (world : List Point) (popSize : ℕ) (pop : List (List ℕ)) :
    List ℝ :=
  probabilites ((sortByFitness world pop).map (fitness world))
    (((sortByFitness world pop).map (fitness world)).sum) popSize

/-- The value returned by `EvolutionMachine.__selection`: draw
`selection_count` individuals by roulette-wheel scan over the fitness-sorted
population, then pair the first half with the second half positionally. -/
noncomputable def selectionPairs (world : List Point) (popSize : ℕ) (pop : List (List ℕ))
    (r : RandDraws) : List (List ℕ × List ℕ) :=
  ((List.range (selectionCount popSize)).map (fun k =>
      (sortByFitness world pop).getD
        (selectScan (selectionProbs world popSize pop) (selectionCount popSize - 2) 0 (r.sel k))
        [])).take (selectionCount popSize / 2) |>.zip
    (((List.range (selectionCount popSize)).map (fun k =>
      (sortByFitness world pop).getD
        (selectScan (selectionProbs world popSize pop) (selectionCount popSize - 2) 0 (r.sel k))
        [])).drop (selectionCount popSize / 2))

/-- The crossover loop of `__next__`: both children of every selected pair, in
order (`new_generation.extend(self.__crossover(s1, s2))`). -/
noncomputable def newGeneration (n : ℕ) (pairs : List (List ℕ × List ℕ)) (r : RandDraws) :
    List (List ℕ) :=
  pairs.enum.flatMap (fun jp =>
    [(crossover n jp.2.1 jp.2.2 (r.cut jp.1)).1, (crossover n jp.2.1 jp.2.2 (r.cut jp.1)).2])

/-- Source `EvolutionMachine.__mutation`: each child is replaced by its inverted copy
when its `random()` roll is at most `MUTATION_CHANCE`, else kept. -/
noncomputable def mutateGen (gen : List (List ℕ)) (r : RandDraws) : List (List ℕ) :=
  gen.enum.map (fun is =>
    if r.roll is.1 > MUTATION_CHANCE then is.2
    else invertSub is.2 (r.subStart is.1) (r.subEnd is.1))

/-- Source `EvolutionMachine.__sort_population`: stable sort ascending by cost. -/
noncomputable def sortByCost (world : List Point) (l : List (List ℕ)) : List (List ℕ) :=
  l.mergeSort (fun a b => decide (cost world a ≤ cost world b))

/-- Source `EvolutionMachine.__merge_generations`: extend the population with the
children, sort ascending by cost, keep the first `populationSize`. -/
noncomputable def mergeGenerations (world : List Point) (popSize : ℕ)
    (pop children : List (List ℕ)) : List (List ℕ) :=
  (sortByCost world (pop ++ children)).take popSize

/-- Source `EvolutionMachine.__next__` (one `advanceGeneration`): selection (which
re-sorts the population by fitness), crossover, mutation, merge; returns the
new population together with `population[0]`. -/
noncomputable def stepEngine (world : List Point) (popSize : ℕ) (pop : List (List ℕ))
    (r : RandDraws) : List (List ℕ) × List ℕ :=
  (mergeGenerations world popSize (sortByFitness world pop)
      (mutateGen (newGeneration world.length (selectionPairs world popSize pop r) r) r),
   (mergeGenerations world popSize (sortByFitness world pop)
      (mutateGen (newGeneration world.length (selectionPairs world popSize pop r) r) r)).headI)

/-- The population after `k` calls of `__next__`, starting from `pop0`, with
`rs k` the random draws of the k-th call. -/
noncomputable def enginePops (world : List Point) (popSize : ℕ) (pop0 : List (List ℕ))
    (rs : ℕ → RandDraws) : ℕ → List (List ℕ)
  | 0 => pop0
  | k + 1 => (stepEngine world popSize (enginePops world popSize pop0 rs k) (rs k)).1

/-- The best tour returned by the (k+1)-st `__next__` call. -/
noncomputable def engineBest (world : List Point) (popSize : ℕ) (pop0 : List (List ℕ))
    (rs : ℕ → RandDraws) (k : ℕ) : List ℕ :=
  (stepEngine world popSize (enginePops world popSize pop0 rs k) (rs k)).2

/-- The cost of the best tour of the (k+1)-st generation. -/
noncomputable def engineCosts (world : List Point) (popSize : ℕ) (pop0 : List (List ℕ))
    (rs : ℕ → RandDraws) (k : ℕ) : ℝ :=
  cost world (engineBest world popSize pop0 rs k)

/-- The `(same_count, last)` state of the `__iter__` loop after `k` yields:
initially `(1, +inf)` (`⊤` models `+inf`); after each yield of a solution of
cost `c`, `same_count` is reset to 0 if `c != last` and incremented otherwise,
and `last` becomes `min(c, last)`. -/
noncomputable def iterState (costs : ℕ → ℝ) : ℕ → ℕ × WithTop ℝ
  | 0 => (1, ⊤)
  | k + 1 =>
    (if ((costs k : ℝ) : WithTop ℝ) ≠ (iterState costs k).2 then 0
      else (iterState costs k).1 + 1,
     min ((costs k : ℝ) : WithTop ℝ) (iterState costs k).2)

/-- The `__iter__` loop guard before producing generation `k+1`:
`same_count < STOP_CONDITION_SAME_COUNT - 1`. -/
def continuesIter (costs : ℕ → ℝ) (k : ℕ) : Prop :=
  (iterState costs k).1 < STOP_CONDITION_SAME_COUNT - 1

/-- The point set accumulated by the sampling loop of `World.__init__` after
`k` iterations (`points_set.add(Point(x, y))` with `draws j` the j-th sampled
point). -/
def worldPointsAfter (draws : ℕ → Point) : ℕ → Finset Point
  | 0 => ∅
  | k + 1 => insert (draws k) (worldPointsAfter draws k)

/-! ### Helper lemmas about valid tours -/

theorem validTour_iff_perm_range (n : ℕ) (l : List ℕ) :
    validTour n l ↔ l.Perm (List.range n) := by
  constructor
  · rintro ⟨hlen, hnd, hb⟩
    have hsub : l.toFinset ⊆ Finset.range n := by
      intro x hx
      rw [List.mem_toFinset] at hx
      exact Finset.mem_range.mpr (hb x hx)
    have hcard : (Finset.range n).card ≤ l.toFinset.card := by
      rw [List.toFinset_card_of_nodup hnd, hlen, Finset.card_range]
    have heq : l.toFinset = Finset.range n := Finset.eq_of_subset_of_card_le hsub hcard
    refine (List.perm_iff_count).mpr fun x => ?_
    rcases Nat.lt_or_ge x n with hx | hx
    · have hxl : x ∈ l := by
        rw [← List.mem_toFinset, heq]
        exact Finset.mem_range.mpr hx
      rw [List.count_eq_one_of_mem hnd hxl,
        List.count_eq_one_of_mem (List.nodup_range n) (List.mem_range.mpr hx)]
    · have hxl : x ∉ l := fun hmem => Nat.lt_irrefl x (Nat.lt_of_lt_of_le (hb x hmem) hx)
      rw [List.count_eq_zero_of_not_mem hxl,
        List.count_eq_zero_of_not_mem (by simpa using hx)]
  · intro hp
    refine ⟨by simpa using hp.length_eq, hp.symm.nodup (List.nodup_range n), fun x hx => ?_⟩
    have := hp.mem_iff.mp hx
    simpa using this

theorem validTour_of_perm {n : ℕ} {l l' : List ℕ} (hp : l'.Perm l) (hv : validTour n l) :
    validTour n l' :=
  (validTour_iff_perm_range n l').mpr (hp.trans ((validTour_iff_perm_range n l).mp hv))

theorem validTour_mem {n : ℕ} {l : List ℕ} (hv : validTour n l) {k : ℕ} (hk : k < n) :
    k ∈ l :=
  ((validTour_iff_perm_range n l).mp hv).mem_iff.mpr (List.mem_range.mpr hk)

/-- Scanning `n` consecutive indices starting anywhere covers every residue
modulo `n`. -/
theorem exists_index_cover (n i p : ℕ) (hp : p < n) :
    ∃ j, i ≤ j ∧ j < i + n ∧ j % n = p := by
  have hn : 0 < n := by omega
  refine ⟨i + ((p + (n - i % n)) % n), Nat.le_add_right _ _, ?_, ?_⟩
  · have : (p + (n - i % n)) % n < n := Nat.mod_lt _ hn
    omega
  · have hr : i % n < n := Nat.mod_lt _ hn
    have h1 : i + (p + (n - i % n)) % n ≡ i % n + (p + (n - i % n)) [MOD n] :=
      Nat.ModEq.add (Nat.mod_modEq i n).symm (Nat.mod_modEq (p + (n - i % n)) n)
    have h2 : i % n + (p + (n - i % n)) = p + n := by omega
    rw [h2] at h1
    have h3 : (i + (p + (n - i % n)) % n) % n = (p + n) % n := h1
    rw [h3, Nat.add_mod_right]
    exact Nat.mod_eq_of_lt hp

/-- A `Nodup` list of naturals all below `n` has length at most `n`. -/
theorem length_le_of_nodup_bounded {l : List ℕ} {n : ℕ} (hnd : l.Nodup)
    (hb : ∀ x ∈ l, x < n) : l.length ≤ n := by
  have hsub : l.toFinset ⊆ Finset.range n := by
    intro x hx
    rw [List.mem_toFinset] at hx
    exact Finset.mem_range.mpr (hb x hx)
  calc l.length = l.toFinset.card := (List.toFinset_card_of_nodup hnd).symm
    _ ≤ (Finset.range n).card := Finset.card_le_card hsub
    _ = n := Finset.card_range n

/-- Invariant proof for the crossover fill loop: if the accumulator is
duplicate-free and in range, and every missing value is still to be read from
the donor within the remaining fuel, the loop produces a valid tour. -/
theorem crossFill_valid (donor : List ℕ) (n : ℕ) (hd : donor.length = n)
    (hdb : ∀ x ∈ donor, x < n) :
    ∀ fuel first i1, first.Nodup → (∀ x ∈ first, x < n) →
      (∀ k, k < n → k ∈ first ∨ ∃ j, i1 ≤ j ∧ j < i1 + fuel ∧ donor.getD (j % n) 0 = k) →
      validTour n (crossFill donor n first i1 fuel) := by
  intro fuel
  induction fuel with
  | zero =>
    intro first i1 hnd hb hcov
    have hall : ∀ k, k < n → k ∈ first := by
      intro k hk
      rcases hcov k hk with h | ⟨j, hj1, hj2, _⟩
      · exact h
      · omega
    have hge : n ≤ first.length := by
      have hsub : Finset.range n ⊆ first.toFinset := by
        intro x hx
        rw [List.mem_toFinset]
        exact hall x (Finset.mem_range.mp hx)
      calc n = (Finset.range n).card := (Finset.card_range n).symm
        _ ≤ first.toFinset.card := Finset.card_le_card hsub
        _ = first.length := List.toFinset_card_of_nodup hnd
    exact ⟨Nat.le_antisymm (length_le_of_nodup_bounded hnd hb) hge, hnd, hb⟩
  | succ fuel ih =>
    intro first i1 hnd hb hcov
    rw [crossFill]
    by_cases hlen : first.length < n
    · rw [if_pos hlen]
      have hn : 0 < n := Nat.pos_of_ne_zero (by rintro rfl; omega)
      have hmodlt : i1 % n < donor.length := by
        rw [hd]
        exact Nat.mod_lt _ hn
      have hcmem : donor.getD (i1 % n) 0 ∈ donor := by
        rw [List.getD_eq_getElem donor 0 hmodlt]
        exact List.getElem_mem _
      by_cases hc : donor.getD (i1 % n) 0 ∈ first
      · rw [if_pos hc]
        refine ih first (i1 + 1) hnd hb ?_
        intro k hk
        rcases hcov k hk with h | ⟨j, hj1, hj2, hj3⟩
        · exact Or.inl h
        · rcases Nat.eq_or_lt_of_le hj1 with rfl | hj1'
          · exact Or.inl (hj3 ▸ hc)
          · exact Or.inr ⟨j, hj1', by omega, hj3⟩
      · rw [if_neg hc]
        refine ih (first ++ [donor.getD (i1 % n) 0]) (i1 + 1) ?_ ?_ ?_
        · refine List.Nodup.append hnd (List.nodup_singleton _) ?_
          intro x hx hx'
          rw [List.mem_singleton.mp hx'] at hx
          exact hc hx
        · intro x hx
          rcases List.mem_append.mp hx with h | h
          · exact hb x h
          · rw [List.mem_singleton.mp h]
            exact hdb _ hcmem
        · intro k hk
          rcases hcov k hk with h | ⟨j, hj1, hj2, hj3⟩
          · exact Or.inl (List.mem_append.mpr (Or.inl h))
          · rcases Nat.eq_or_lt_of_le hj1 with rfl | hj1'
            · exact Or.inl (List.mem_append.mpr (Or.inr (List.mem_singleton.mpr hj3.symm)))
            · exact Or.inr ⟨j, hj1', by omega, hj3⟩
    · rw [if_neg hlen]
      exact ⟨Nat.le_antisymm (length_le_of_nodup_bounded hnd hb) (by omega), hnd, hb⟩

/-- Filling from a duplicate-free donor starting with its own prefix simply
reconstructs the donor. -/
theorem crossFill_take (donor : List ℕ) (n : ℕ) (hd : donor.length = n)
    (hnd : donor.Nodup) :
    ∀ fuel k, n ≤ k + fuel → crossFill donor n (donor.take k) k fuel = donor := by
  intro fuel
  induction fuel with
  | zero =>
    intro k hk
    rw [crossFill]
    exact List.take_of_length_le (by omega)
  | succ fuel ih =>
    intro k hk
    rw [crossFill]
    by_cases hlen : (donor.take k).length < n
    · rw [if_pos hlen]
      have hkn : k < n := by
        rcases Nat.lt_or_ge k n with h | h
        · exact h
        · exfalso
          rw [List.take_of_length_le (by omega)] at hlen
          omega
      have hmod : k % n = k := Nat.mod_eq_of_lt hkn
      have hklt : k < donor.length := by omega
      have hget : donor.getD (k % n) 0 = donor[k] := by
        rw [hmod]
        exact List.getD_eq_getElem donor 0 hklt
      have hnotmem : donor.getD (k % n) 0 ∉ donor.take k := by
        rw [hget]
        intro hmem
        obtain ⟨m, hm, hmk⟩ := List.mem_take_iff_getElem.mp hmem
        have : m = k := by
          have hmlt : m < donor.length := by
            simp at hm
            omega
          exact List.Nodup.getElem_inj_iff hnd |>.mp hmk
        omega
      rw [if_neg hnotmem]
      have htake : donor.take k ++ [donor.getD (k % n) 0] = donor.take (k + 1) := by
        rw [hget, ← List.take_concat_get donor k hklt, List.concat_eq_append]
      rw [htake]
      exact ih (k + 1) (by omega)
    · rw [if_neg hlen]
      have : n ≤ (donor.take k).length := by omega
      rw [List.length_take] at this
      exact List.take_of_length_le (by omega)

/-- The inversion step is a permutation of its input. -/
theorem invertSub_perm (l : List ℕ) (a b : ℕ) (hab : a ≤ b + 1) :
    (invertSub l a b).Perm l := by
  unfold invertSub
  have hsplit : l = l.take a ++ ((l.drop a).take (b + 1 - a) ++ l.drop (b + 1)) := by
    conv_lhs => rw [← List.take_append_drop a l]
    congr 1
    conv_lhs => rw [← List.take_append_drop (b + 1 - a) (l.drop a)]
    congr 1
    rw [List.drop_drop]
    congr 1
    omega
  conv_rhs => rw [hsplit]
  rw [List.append_assoc]
  refine List.Perm.append_left _ ?_
  exact List.Perm.append_right _ (List.reverse_perm _)

/-- A crossover child (prefix of one valid parent filled cyclically from the
other) is a valid tour, for every cut point. -/
theorem crossover_child_valid {N : ℕ} {s1 s2 : List ℕ} (h1 : validTour N s1)
    (h2 : validTour N s2) (c : ℕ) : validTour N (crossFill s2 N (s1.take c) c N) := by
  obtain ⟨hl1, hnd1, hb1⟩ := h1
  obtain ⟨hl2, hnd2, hb2⟩ := h2
  refine crossFill_valid s2 N hl2 hb2 N (s1.take c) c ?_ ?_ ?_
  · exact (List.take_sublist c s1).nodup hnd1
  · intro x hx
    exact hb1 x (List.mem_of_mem_take hx)
  · intro k hk
    right
    obtain ⟨p, hp, hpk⟩ := List.getElem_of_mem (validTour_mem ⟨hl2, hnd2, hb2⟩ hk)
    obtain ⟨j, hj1, hj2, hj3⟩ := exists_index_cover N c p (hl2 ▸ hp)
    refine ⟨j, hj1, hj2, ?_⟩
    rw [hj3, List.getD_eq_getElem s2 0 hp]
    exact hpk

/-- C1. Every tour produced by population initialization (a shuffle of
`list(range(N))`), by crossover (for any cut point drawn from
`randint(1, N-1)`), or by inversion mutation (for any in-range sub-range
draws) is a valid permutation of `{0, …, N-1}`: its path has length exactly
`N` and contains no repeated index, for every world size and every draw. -/
theorem c1_produced_tours_valid (N : ℕ) :
    (∀ l, shuffleOutcome N l → validTour N l) ∧
    (∀ s1 s2 c, validTour N s1 → validTour N s2 → 1 ≤ c → c ≤ N - 1 →
      validTour N (crossover N s1 s2 c).1 ∧ validTour N (crossover N s1 s2 c).2) ∧
    (∀ l a b, validTour N l → a < b → b < N → validTour N (invertSub l a b)) := by
  refine ⟨fun l hl => (validTour_iff_perm_range N l).mpr hl, ?_, ?_⟩
  · intro s1 s2 c h1 h2 _ _
    exact ⟨crossover_child_valid h1 h2 c, crossover_child_valid h2 h1 c⟩
  · intro l a b hv hab _
    exact validTour_of_perm (invertSub_perm l a b (by omega)) hv

/-- Witness for C1 at `N = 3` with concrete draws. -/
theorem c1_produced_tours_valid_witness :
    validTour 3 [2, 0, 1] ∧
    (validTour 3 (crossover 3 [0, 1, 2] [2, 1, 0] 1).1 ∧
      validTour 3 (crossover 3 [0, 1, 2] [2, 1, 0] 1).2) ∧
    validTour 3 (invertSub [0, 1, 2] 0 2) :=
  ⟨(c1_produced_tours_valid 3).1 [2, 0, 1] (by decide),
   (c1_produced_tours_valid 3).2.1 [0, 1, 2] [2, 1, 0] 1 (by decide) (by decide)
     (by decide) (by decide),
   (c1_produced_tours_valid 3).2.2 [0, 1, 2] 0 2 (by decide) (by decide) (by decide)⟩

/-- C10. Crossover of a valid tour with itself is the identity, for every
cut point in `[1, N-1]`. -/
theorem c10_crossover_self_identity (N : ℕ) (A : List ℕ) (c : ℕ) (hA : validTour N A)
    (_hc1 : 1 ≤ c) (_hc2 : c ≤ N - 1) : crossover N A A c = (A, A) := by
  obtain ⟨hl, hnd, _⟩ := hA
  unfold crossover
  rw [crossFill_take A N hl hnd N c (by omega)]

/-- Witness for C10 at a concrete tour and cut. -/
theorem c10_crossover_self_identity_witness :
    crossover 3 [1, 2, 0] [1, 2, 0] 2 = ([1, 2, 0], [1, 2, 0]) :=
  c10_crossover_self_identity 3 [1, 2, 0] 2 (by decide) (by decide) (by decide)

/-! ### Cost lemmas (C7) -/

/-- The zip-of-consecutive-pairs form of `cost` agrees with the indexed sum of
the spec. -/
theorem cost_eq_specCost (world : List Point) :
    ∀ path, cost world path = specCost world path := by
  intro path
  induction path with
  | nil => simp [cost, specCost]
  | cons a t ih =>
    cases t with
    | nil => simp [cost, specCost]
    | cons b t' =>
      have ih' : cost world (b :: t') = specCost world (b :: t') := ih
      have hc : cost world (a :: b :: t') =
          (world.getD a ⟨0, 0⟩).distance_to (world.getD b ⟨0, 0⟩) + cost world (b :: t') := by
        simp [cost]
      have hs : specCost world (a :: b :: t') =
          (world.getD a ⟨0, 0⟩).distance_to (world.getD b ⟨0, 0⟩) + specCost world (b :: t') := by
        simp only [specCost, List.length_cons, Nat.add_sub_cancel, List.range_succ_eq_map,
          List.map_cons, List.map_map, List.sum_cons]
        congr 1
      rw [hc, hs, ih']

/-- Every pairwise distance is non-negative (a square root). -/
theorem distance_to_nonneg (p q : Point) : 0 ≤ p.distance_to q :=
  Real.sqrt_nonneg _

/-- A path of length at most one has cost zero. -/
theorem cost_short (world : List Point) :
    ∀ path : List ℕ, path.length ≤ 1 → cost world path = 0 := by
  intro path h
  cases path with
  | nil => simp [cost]
  | cons a t =>
    cases t with
    | nil => simp [cost]
    | cons b t' => simp at h

/-- C7. `Tour.cost(world)` equals the sum of
`world.distance(path[i], path[i+1])` for `i` in `0..N-2` (open path, no
return-to-start edge); it is non-negative whenever all coordinates are
non-negative, and it equals 0 whenever the world has at most one point. -/
theorem c7_cost_open_path (world : List Point) (path : List ℕ) :
    cost world path = specCost world path ∧
    ((∀ p ∈ world, 0 ≤ p.x ∧ 0 ≤ p.y) → 0 ≤ cost world path) ∧
    (world.length ≤ 1 → validTour world.length path → cost world path = 0) := by
  refine ⟨cost_eq_specCost world path, ?_, ?_⟩
  · intro _
    refine List.sum_nonneg ?_
    intro x hx
    obtain ⟨pq, _, rfl⟩ := List.mem_map.mp hx
    exact distance_to_nonneg _ _
  · intro hw hv
    exact cost_short world path (hv.1 ▸ hw)

/-- Witness for C7 at the one-point world. -/
theorem c7_cost_open_path_witness :
    cost [⟨0, 0⟩] [0] = specCost [⟨0, 0⟩] [0] ∧ 0 ≤ cost [⟨0, 0⟩] [0] ∧
      cost [⟨0, 0⟩] [0] = 0 :=
  ⟨(c7_cost_open_path [⟨0, 0⟩] [0]).1,
   (c7_cost_open_path [⟨0, 0⟩] [0]).2.1 (by decide),
   (c7_cost_open_path [⟨0, 0⟩] [0]).2.2 (by decide) (by decide)⟩

/-! ### Sorting lemmas for the engine -/

/-- A mergeSort by a real-valued key is pairwise non-decreasing in the key. -/
theorem mergeSort_key_pairwise {α : Type} (key : α → ℝ) (l : List α) :
    (l.mergeSort (fun a b => decide (key a ≤ key b))).Pairwise
      (fun a b => key a ≤ key b) := by
  have h := @List.sorted_mergeSort _ (fun a b => decide (key a ≤ key b))
    (fun a b c hab hbc => by
      simp only [decide_eq_true_eq] at hab hbc ⊢
      exact le_trans hab hbc)
    (fun a b => by
      simp only [Bool.or_eq_true, decide_eq_true_eq]
      exact le_total _ _) l
  refine h.imp ?_
  intro a b hab
  simpa using hab

theorem sortByCost_perm (world : List Point) (l : List (List ℕ)) :
    (sortByCost world l).Perm l :=
  List.mergeSort_perm l _

theorem sortByCost_pairwise (world : List Point) (l : List (List ℕ)) :
    (sortByCost world l).Pairwise (fun a b => cost world a ≤ cost world b) :=
  mergeSort_key_pairwise (cost world) l

theorem sortByFitness_perm (world : List Point) (l : List (List ℕ)) :
    (sortByFitness world l).Perm l :=
  List.mergeSort_perm l _

theorem sortByFitness_pairwise (world : List Point) (l : List (List ℕ)) :
    (sortByFitness world l).Pairwise (fun a b => fitness world a ≤ fitness world b) :=
  mergeSort_key_pairwise (fitness world) l

/-- The default-valued head of a non-empty list is a member. -/
theorem headI_mem_of_ne_nil {α : Type} [Inhabited α] {l : List α} (h : l ≠ []) :
    l.headI ∈ l := by
  cases l with
  | nil => exact absurd rfl h
  | cons a t => exact List.mem_cons_self a t

/-- The head of the cost-sorted list realizes the minimum cost. -/
theorem headI_sortByCost_min (world : List Point) (l : List (List ℕ))
    (x : List ℕ) (hx : x ∈ l) :
    cost world (sortByCost world l).headI ≤ cost world x := by
  have hperm := sortByCost_perm world l
  have hpw := sortByCost_pairwise world l
  have hx' : x ∈ sortByCost world l := hperm.mem_iff.mpr hx
  cases hs : sortByCost world l with
  | nil =>
    rw [hs] at hx'
    simp at hx'
  | cons h t =>
    rw [hs] at hx' hpw
    rcases List.mem_cons.mp hx' with rfl | hmem
    · simp
    · simpa using (List.pairwise_cons.mp hpw).1 x hmem

/-- Taking at least one element preserves the head. -/
theorem headI_take {α : Type} [Inhabited α] (l : List α) (n : ℕ) (hn : 1 ≤ n) :
    (l.take n).headI = l.headI := by
  cases l with
  | nil => simp
  | cons a t =>
    cases n with
    | zero => omega
    | succ m => simp [List.take_succ_cons]

/-- The merged population is never empty when the old one is not. -/
theorem stepEngine_fst_ne_nil (world : List Point) (popSize : ℕ) (pop : List (List ℕ))
    (r : RandDraws) (hpop : pop ≠ []) (hsize : 1 ≤ popSize) :
    (stepEngine world popSize pop r).1 ≠ [] := by
  unfold stepEngine mergeGenerations
  intro hnil
  have hlen := congrArg List.length hnil
  rw [List.length_take] at hlen
  simp only [List.length_nil] at hlen
  have hlc : (sortByCost world (sortByFitness world pop ++
      mutateGen (newGeneration world.length (selectionPairs world popSize pop r) r) r)).length =
      (sortByFitness world pop ++
      mutateGen (newGeneration world.length (selectionPairs world popSize pop r) r) r).length :=
    (sortByCost_perm world _).length_eq
  rw [List.length_append] at hlc
  have hfit : (sortByFitness world pop).length = pop.length :=
    (sortByFitness_perm world pop).length_eq
  have hpos : 0 < pop.length := List.length_pos.mpr hpop
  omega

/-- C3. After the merge/survivor-selection step, the population has
exactly `populationSize` tours, they are the `populationSize` lowest-cost
tours among the old population and the children (the rest are dropped),
they are sorted ascending by cost, and `__next__` returns the first of
them. -/
theorem c3_merge_elitist_truncation (world : List Point) (popSize : ℕ)
    (pop children : List (List ℕ)) (r : RandDraws) (hlen : popSize ≤ pop.length) :
    (mergeGenerations world popSize pop children).length = popSize ∧
    (mergeGenerations world popSize pop children).Pairwise
      (fun a b => cost world a ≤ cost world b) ∧
    (mergeGenerations world popSize pop children ++
      (sortByCost world (pop ++ children)).drop popSize).Perm (pop ++ children) ∧
    (∀ a ∈ mergeGenerations world popSize pop children,
      ∀ b ∈ (sortByCost world (pop ++ children)).drop popSize,
        cost world a ≤ cost world b) ∧
    (stepEngine world popSize pop r).2 = ((stepEngine world popSize pop r).1).headI ∧
    (stepEngine world popSize pop r).1 =
      mergeGenerations world popSize (sortByFitness world pop)
        (mutateGen (newGeneration world.length (selectionPairs world popSize pop r) r) r) := by
  have hslen : (sortByCost world (pop ++ children)).length = pop.length + children.length := by
    rw [(sortByCost_perm world _).length_eq, List.length_append]
  have hpw := sortByCost_pairwise world (pop ++ children)
  refine ⟨?_, ?_, ?_, ?_, rfl, rfl⟩
  · unfold mergeGenerations
    rw [List.length_take, hslen]
    omega
  · exact hpw.sublist (List.take_sublist _ _)
  · unfold mergeGenerations
    rw [List.take_append_drop]
    exact sortByCost_perm world _
  · intro a ha b hb
    have hpw2 : List.Pairwise (fun a b => cost world a ≤ cost world b)
        ((sortByCost world (pop ++ children)).take popSize ++
          (sortByCost world (pop ++ children)).drop popSize) := by
      rw [List.take_append_drop]
      exact hpw
    exact (List.pairwise_append.mp hpw2).2.2 a ha b hb

/-- Witness for C3 at a one-point world. -/
theorem c3_merge_elitist_truncation_witness :
    (1 : ℕ) ≤ ([[0]] : List (List ℕ)).length ∧
    (mergeGenerations [(⟨0, 0⟩ : Point)] 1 [[0]] []).length = 1 :=
  ⟨by decide,
   (c3_merge_elitist_truncation [(⟨0, 0⟩ : Point)] 1 [[0]] []
     ⟨fun _ => 0, fun _ => 0, fun _ => 0, fun _ => 0, fun _ => 0⟩ (by decide)).1⟩

/-- C2. The cost of the best tour returned by successive `__next__`
calls is monotonically non-increasing: whatever the random draws of the two
calls, the second best costs at most the first. -/
theorem c2_best_cost_monotone (world : List Point) (popSize : ℕ) (pop : List (List ℕ))
    (r1 r2 : RandDraws) (hpop : pop ≠ []) (hsize : 1 ≤ popSize) :
    cost world (stepEngine world popSize (stepEngine world popSize pop r1).1 r2).2 ≤
      cost world (stepEngine world popSize pop r1).2 := by
  set pop1 := (stepEngine world popSize pop r1).1 with hpop1
  have hne1 : pop1 ≠ [] := stepEngine_fst_ne_nil world popSize pop r1 hpop hsize
  have hbest1 : (stepEngine world popSize pop r1).2 = pop1.headI := rfl
  set children2 := mutateGen
    (newGeneration world.length (selectionPairs world popSize pop1 r2) r2) r2 with hch2
  have hstep2 : (stepEngine world popSize pop1 r2).2 =
      ((sortByCost world (sortByFitness world pop1 ++ children2)).take popSize).headI := rfl
  have hL2ne : sortByCost world (sortByFitness world pop1 ++ children2) ≠ [] := by
    intro hnil
    have := congrArg List.length hnil
    rw [(sortByCost_perm world _).length_eq, List.length_append,
      (sortByFitness_perm world pop1).length_eq] at this
    simp only [List.length_nil] at this
    have := List.length_pos.mpr hne1
    omega
  have hhead : ((sortByCost world (sortByFitness world pop1 ++ children2)).take popSize).headI =
      (sortByCost world (sortByFitness world pop1 ++ children2)).headI :=
    headI_take _ popSize hsize
  have hmem : pop1.headI ∈ sortByFitness world pop1 ++ children2 :=
    List.mem_append.mpr (Or.inl ((sortByFitness_perm world pop1).mem_iff.mpr
      (headI_mem_of_ne_nil hne1)))
  rw [hbest1, hstep2, hhead]
  exact headI_sortByCost_min world _ _ hmem

/-- Witness for C2 at a one-point world. -/
theorem c2_best_cost_monotone_witness :
    ([[0]] : List (List ℕ)) ≠ [] ∧
    cost [(⟨0, 0⟩ : Point)]
        (stepEngine [(⟨0, 0⟩ : Point)] 1
          (stepEngine [(⟨0, 0⟩ : Point)] 1 [[0]]
            ⟨fun _ => 0, fun _ => 0, fun _ => 0, fun _ => 0, fun _ => 0⟩).1
          ⟨fun _ => 0, fun _ => 0, fun _ => 0, fun _ => 0, fun _ => 0⟩).2 ≤
      cost [(⟨0, 0⟩ : Point)]
        (stepEngine [(⟨0, 0⟩ : Point)] 1 [[0]]
          ⟨fun _ => 0, fun _ => 0, fun _ => 0, fun _ => 0, fun _ => 0⟩).2 :=
  ⟨by decide,
   c2_best_cost_monotone [(⟨0, 0⟩ : Point)] 1 [[0]] _ _ (by decide) (by decide)⟩

/-! ### Concrete worlds and cost evaluations -/

/-- Distance of two points on the x-axis. -/
theorem distance_x_axis (a b : ℤ) :
    (Point.mk a 0).distance_to ⟨b, 0⟩ = ((|a - b| : ℤ) : ℝ) := by
  unfold Point.distance_to
  push_cast
  rw [show ((a : ℝ) - b) * ((a : ℝ) - b) + 0 = ((a : ℝ) - b) ^ 2 by ring]
  rw [Real.sqrt_sq_eq_abs]

/-- A concrete collinear 3-point world: (0,0), (1,0), (2,0). -/
def world3 : List Point := [⟨0, 0⟩, ⟨1, 0⟩, ⟨2, 0⟩]

/-- A concrete 2-point world: (0,0), (1,0). -/
def world2 : List Point := [⟨0, 0⟩, ⟨1, 0⟩]

theorem cost_world3_012 : cost world3 [0, 1, 2] = 2 := by
  simp only [cost, world3, List.zip_cons_cons, List.tail_cons, List.map_cons, List.map_nil,
    List.sum_cons, List.sum_nil, List.getD_cons_zero, List.getD_cons_succ]
  rw [distance_x_axis, distance_x_axis]
  norm_num

theorem cost_world3_102 : cost world3 [1, 0, 2] = 3 := by
  simp only [cost, world3, List.zip_cons_cons, List.tail_cons, List.map_cons, List.map_nil,
    List.sum_cons, List.sum_nil, List.getD_cons_zero, List.getD_cons_succ]
  rw [distance_x_axis, distance_x_axis]
  norm_num

theorem cost_world2_01 : cost world2 [0, 1] = 1 := by
  simp only [cost, world2, List.zip_cons_cons, List.tail_cons, List.map_cons, List.map_nil,
    List.sum_cons, List.sum_nil, List.getD_cons_zero, List.getD_cons_succ]
  rw [distance_x_axis]
  norm_num

theorem cost_world2_10 : cost world2 [1, 0] = 1 := by
  simp only [cost, world2, List.zip_cons_cons, List.tail_cons, List.map_cons, List.map_nil,
    List.sum_cons, List.sum_nil, List.getD_cons_zero, List.getD_cons_succ]
  rw [distance_x_axis]
  norm_num

/-! ### C5: the selection-step sort -/

/-- The fitness-ascending sort of `__selection` is non-increasing in cost
(highest-cost tour first). -/
theorem sortByFitness_pairwise_cost_ge (world : List Point) (pop : List (List ℕ)) :
    (sortByFitness world pop).Pairwise (fun a b => cost world b ≤ cost world a) := by
  refine (sortByFitness_pairwise world pop).imp ?_
  intro a b hab
  unfold fitness at hab
  linarith

/-- C5, amended. At the start of the selection step the population is
sorted ascending by FITNESS — equivalently, non-increasing (descending) in
cost, the highest-cost tour first — and the cumulative fitness distribution
is built over exactly this fitness-sorted population; it is not sorted
ascending by cost. -/
theorem c5_selection_sorts_descending_cost (world : List Point) (popSize : ℕ)
    (pop : List (List ℕ)) :
    (sortByFitness world pop).Perm pop ∧
    (sortByFitness world pop).Pairwise (fun a b => fitness world a ≤ fitness world b) ∧
    (sortByFitness world pop).Pairwise (fun a b => cost world b ≤ cost world a) ∧
    selectionProbs world popSize pop =
      probabilites ((sortByFitness world pop).map (fitness world))
        (((sortByFitness world pop).map (fitness world)).sum) popSize :=
  ⟨sortByFitness_perm world pop, sortByFitness_pairwise world pop,
   sortByFitness_pairwise_cost_ge world pop, rfl⟩

/-- C5, counterexample. For the collinear 3-point world and the
population `[[0,1,2], [1,0,2]]` (costs 2 and 3), the population as sorted by
the selection step is NOT ascending by cost. -/
theorem c5_counterexample :
    ¬ (sortByFitness world3 [[0, 1, 2], [1, 0, 2]]).Pairwise
        (fun a b => cost world3 a ≤ cost world3 b) := by
  intro hasc
  have hdesc := sortByFitness_pairwise_cost_ge world3 [[0, 1, 2], [1, 0, 2]]
  have hcomb := hasc.and hdesc
  have hsym : Symmetric (fun a b =>
      (cost world3 a ≤ cost world3 b) ∧ (cost world3 b ≤ cost world3 a)) := by
    intro a b h
    exact ⟨h.2, h.1⟩
  have hmem1 : [0, 1, 2] ∈ sortByFitness world3 [[0, 1, 2], [1, 0, 2]] :=
    (sortByFitness_perm world3 _).mem_iff.mpr (by simp)
  have hmem2 : [1, 0, 2] ∈ sortByFitness world3 [[0, 1, 2], [1, 0, 2]] :=
    (sortByFitness_perm world3 _).mem_iff.mpr (by simp)
  have hne : ([0, 1, 2] : List ℕ) ≠ [1, 0, 2] := by decide
  have hpair := hcomb.forall hsym hmem1 hmem2 hne
  have heq : cost world3 [0, 1, 2] = cost world3 [1, 0, 2] :=
    le_antisymm hpair.1 hpair.2
  rw [cost_world3_012, cost_world3_102] at heq
  norm_num at heq

/-! ### C6: the selection scan -/

/-- The scan loop returns the first crossing index clamped at `bound`
(which in the source is `selection_count - 2`, not the array's tail). -/
theorem selectScan_eq_min (probs : List ℝ) (p : ℝ) (bound : ℕ)
    (hb : bound ≤ probs.length) :
    ∀ d idx, bound - idx = d → idx ≤ bound →
      selectScan probs bound idx p =
        min (idx + (probs.drop idx).findIdx (fun q => decide (p ≤ q))) bound := by
  intro d
  induction d with
  | zero =>
    intro idx hd hidx
    have hib : idx = bound := by omega
    subst hib
    rw [selectScan]
    rw [dif_neg (fun h => absurd h.2 (lt_irrefl idx))]
    omega
  | succ d ih =>
    intro idx hd hidx
    have hlt : idx < bound := by omega
    have hidxlen : idx < probs.length := by omega
    have hdrop : probs.drop idx = probs[idx] :: probs.drop (idx + 1) :=
      List.drop_eq_getElem_cons hidxlen
    have hgetd : probs.getD idx 0 = probs[idx] := List.getD_eq_getElem probs 0 hidxlen
    rw [selectScan]
    by_cases hp : p > probs.getD idx 0
    · rw [dif_pos ⟨hp, hlt⟩]
      rw [ih (idx + 1) (by omega) (by omega)]
      rw [hdrop, List.findIdx_cons]
      have hfalse : decide (p ≤ probs[idx]) = false := by
        simp only [decide_eq_false_iff_not, not_le]
        rw [← hgetd]
        exact hp
      rw [hfalse]
      simp only [cond_false]
      omega
    · rw [dif_neg (fun h => hp h.1)]
      rw [hdrop, List.findIdx_cons]
      have htrue : decide (p ≤ probs[idx]) = true := by
        simp only [decide_eq_true_eq]
        rw [← hgetd]
        exact le_of_not_lt hp
      rw [htrue]
      simp only [cond_true]
      omega

/-- C6, amended. Each selection draw samples a value and linearly scans
the cumulative array for the first index whose cumulative probability meets
or exceeds it, but the scan is clamped at `selection_count - 2` — an index
inside the first half of the `populationSize`-long array — rather than only
at the array's tail. -/
theorem c6_selection_scan_clamped (probs : List ℝ) (p : ℝ) (bound : ℕ)
    (hb : bound ≤ probs.length) :
    selectScan probs bound 0 p = min (specScanIndex probs p) bound := by
  have h := selectScan_eq_min probs p bound hb (bound - 0) 0 rfl (Nat.zero_le bound)
  rw [h]
  unfold specScanIndex
  rw [List.drop_zero, Nat.zero_add]

/-- Witness for the amended C6. -/
theorem c6_selection_scan_clamped_witness :
    (1 : ℕ) ≤ [(1 : ℝ)].length ∧
    selectScan [(1 : ℝ)] 1 0 0 = min (specScanIndex [(1 : ℝ)] 0) 1 :=
  ⟨by simp, c6_selection_scan_clamped [(1 : ℝ)] 0 1 (by simp)⟩

theorem fitness_world2_01 : fitness world2 [0, 1] = Real.sqrt 2 * 2 - 1 := by
  unfold fitness
  rw [cost_world2_01]
  norm_num [world2]

theorem fitness_world2_10 : fitness world2 [1, 0] = Real.sqrt 2 * 2 - 1 := by
  unfold fitness
  rw [cost_world2_10]
  norm_num [world2]

/-- C6, counterexample. For the 2-point world (population
`[[0,1],[1,0]]`, both tours of cost 1, so cumulative probabilities
`[1/2, 1]`) and sampled value `3/4`, the code's scan is clamped at
`selection_count - 2 = 0` and returns index 0, while the first index whose
cumulative probability meets the sample (clamped only at the tail of the
`populationSize`-long array) is 1. -/
theorem c6_counterexample :
    selectScan (selectionProbs world2 (populationSize 2) [[0, 1], [1, 0]])
        (selectionCount (populationSize 2) - 2) 0 (3 / 4) ≠
      min (specScanIndex (selectionProbs world2 (populationSize 2) [[0, 1], [1, 0]]) (3 / 4))
        ((selectionProbs world2 (populationSize 2) [[0, 1], [1, 0]]).length - 1) := by
  have hpop : populationSize 2 = 2 := by decide
  have hsel : selectionCount 2 = 2 := by decide
  set F := Real.sqrt 2 * 2 - 1 with hFdef
  have h1 : (1 : ℝ) ≤ Real.sqrt 2 := by
    rw [show (1 : ℝ) = Real.sqrt 1 from (Real.sqrt_one).symm]
    exact Real.sqrt_le_sqrt (by norm_num)
  have hFpos : 0 < F := by
    rw [hFdef]
    nlinarith
  have hhalf : F / (F + F) = 1 / 2 := by
    rw [div_eq_iff (by linarith : F + F ≠ 0)]
    ring
  have hsort : sortByFitness world2 [[0, 1], [1, 0]] = [[0, 1], [1, 0]] := by
    unfold sortByFitness
    apply List.mergeSort_of_sorted
    refine List.Pairwise.cons (fun b hb => ?_)
      (List.Pairwise.cons (fun b hb => (List.not_mem_nil b hb).elim) List.Pairwise.nil)
    have hb' : b = [1, 0] := by simpa using hb
    subst hb'
    rw [decide_eq_true_eq, fitness_world2_01, fitness_world2_10]
  have hmapfit : ([[0, 1], [1, 0]] : List (List ℕ)).map (fitness world2) = [F, F] := by
    simp only [List.map_cons, List.map_nil]
    rw [fitness_world2_01, fitness_world2_10]
  have hsum : ([F, F] : List ℝ).sum = F + F := by simp
  have hprobs : selectionProbs world2 (populationSize 2) [[0, 1], [1, 0]] =
      [0 + F / (F + F), 0 + F / (F + F) + F / (F + F)] := by
    rw [hpop]
    unfold selectionProbs
    rw [hsort, hmapfit, hsum]
    rfl
  have hq0 : (0 : ℝ) + F / (F + F) = 1 / 2 := by
    rw [zero_add, hhalf]
  have hq1 : (0 : ℝ) + F / (F + F) + F / (F + F) = 1 := by
    rw [zero_add, hhalf]
    norm_num
  have hLHS : selectScan (selectionProbs world2 (populationSize 2) [[0, 1], [1, 0]])
      (selectionCount (populationSize 2) - 2) 0 (3 / 4) = 0 := by
    rw [hpop, hsel]
    rw [show (2 : ℕ) - 2 = 0 from rfl]
    rw [selectScan]
    exact dif_neg (fun h => absurd h.2 (by omega))
  have hRHS : min (specScanIndex (selectionProbs world2 (populationSize 2)
        [[0, 1], [1, 0]]) (3 / 4))
      ((selectionProbs world2 (populationSize 2) [[0, 1], [1, 0]]).length - 1) = 1 := by
    rw [hprobs]
    unfold specScanIndex
    rw [List.findIdx_cons]
    rw [show decide ((3 : ℝ) / 4 ≤ 0 + F / (F + F)) = false from by
      simp only [decide_eq_false_iff_not, not_le]
      rw [hq0]
      norm_num]
    simp only [cond_false]
    rw [List.findIdx_cons]
    rw [show decide ((3 : ℝ) / 4 ≤ 0 + F / (F + F) + F / (F + F)) = true from by
      rw [decide_eq_true_eq, hq1]
      norm_num]
    simp only [cond_true]
    rfl
  rw [hLHS, hRHS]
  omega

/-! ### C4 and C9: the N = 1 engine and the stagnation stop -/

instance (n p : ℕ) (pop : List (List ℕ)) : Decidable (initPopOutcome n p pop) := by
  unfold initPopOutcome; infer_instance

/-- With `populationSize = 1` the selection step makes no draws and yields no
pairs. -/
theorem selectionPairs_one (pt : Point) (pop : List (List ℕ)) (r : RandDraws) :
    selectionPairs [pt] 1 pop r = [] := by
  unfold selectionPairs
  rw [show selectionCount 1 = 0 from by decide]
  simp

/-- One `__next__` call of the one-point engine returns population `[[0]]`
and best tour `[0]`. -/
theorem stepEngine_one (pt : Point) (r : RandDraws) :
    stepEngine [pt] 1 [[0]] r = ([[0]], [0]) := by
  unfold stepEngine
  rw [selectionPairs_one]
  unfold newGeneration mutateGen mergeGenerations sortByCost sortByFitness
  simp [List.mergeSort_singleton]

theorem enginePops_one (pt : Point) (rs : ℕ → RandDraws) :
    ∀ k, enginePops [pt] 1 [[0]] rs k = [[0]] := by
  intro k
  induction k with
  | zero => rfl
  | succ k ih => rw [enginePops, ih, stepEngine_one]

/-- Every generation of the one-point engine has best cost 0. -/
theorem engineCosts_one (pt : Point) (rs : ℕ → RandDraws) :
    engineCosts [pt] 1 [[0]] rs = fun _ => 0 := by
  funext k
  unfold engineCosts engineBest
  rw [enginePops_one, stepEngine_one]
  exact cost_short [pt] [0] (by norm_num)

/-- The iterator state under a constant cost stream: after `k + 1` yields the
stagnation counter is `k` and the recorded minimum is the constant. -/
theorem iterState_const (c : ℝ) : ∀ k, iterState (fun _ => c) (k + 1) = (k, (c : WithTop ℝ)) := by
  intro k
  induction k with
  | zero =>
    rw [iterState, iterState]
    simp
  | succ k ih =>
    rw [iterState, ih]
    simp

/-- C4, amended. The `__iter__` loop guard compares the stagnation
counter against `STOP_CONDITION_SAME_COUNT - 1 = 15` (not 14): with an engine
whose best-of-generation cost is the same constant in every generation
(in particular fixed for 15 consecutive generations), all of generations
1..16 are produced and generation 17 is not — the lazy sequence stops after
exactly 16 steps, when the counter reaches 15. -/
theorem c4_stagnation_stop (world : List Point) (popSize : ℕ) (pop0 : List (List ℕ))
    (rs : ℕ → RandDraws) (c : ℝ)
    (hconst : ∀ k, engineCosts world popSize pop0 rs k = c) :
    (∀ k < STOP_CONDITION_SAME_COUNT,
      continuesIter (engineCosts world popSize pop0 rs) k) ∧
    ¬ continuesIter (engineCosts world popSize pop0 rs) STOP_CONDITION_SAME_COUNT := by
  have hfun : engineCosts world popSize pop0 rs = fun _ => c := funext hconst
  rw [hfun]
  constructor
  · intro k hk
    unfold continuesIter
    cases k with
    | zero =>
      rw [iterState]
      norm_num [STOP_CONDITION_SAME_COUNT]
    | succ k =>
      rw [iterState_const]
      unfold STOP_CONDITION_SAME_COUNT at hk ⊢
      omega
  · unfold continuesIter
    rw [show STOP_CONDITION_SAME_COUNT = 15 + 1 from rfl, iterState_const]
    norm_num [STOP_CONDITION_SAME_COUNT]

/-- Witness for the amended C4: the one-point engine still produces a 16th
generation (guard true after 15 yields) and stops before a 17th. -/
theorem c4_stagnation_stop_witness :
    continuesIter (engineCosts [(⟨0, 0⟩ : Point)] 1 [[0]]
      (fun _ => ⟨fun _ => 0, fun _ => 0, fun _ => 0, fun _ => 0, fun _ => 0⟩)) 15 ∧
    ¬ continuesIter (engineCosts [(⟨0, 0⟩ : Point)] 1 [[0]]
      (fun _ => ⟨fun _ => 0, fun _ => 0, fun _ => 0, fun _ => 0, fun _ => 0⟩)) 16 :=
  ⟨(c4_stagnation_stop [(⟨0, 0⟩ : Point)] 1 [[0]] _ 0
      (fun k => congrFun (engineCosts_one _ _) k)).1 15
      (by norm_num [STOP_CONDITION_SAME_COUNT]),
   (c4_stagnation_stop [(⟨0, 0⟩ : Point)] 1 [[0]] _ 0
      (fun k => congrFun (engineCosts_one _ _) k)).2⟩

/-- C4, counterexample. The claim as stated — with the best cost fixed
for 15 consecutive generations the lazy sequence stops after exactly 15
steps — is false at the one-point engine (best cost 0 in every generation):
after 15 yields the loop guard still holds (the counter is only 14), so a
16th generation is produced. -/
theorem c4_counterexample :
    ¬ ((∀ k < 15, continuesIter (engineCosts [(⟨0, 0⟩ : Point)] 1 [[0]]
        (fun _ => ⟨fun _ => 0, fun _ => 0, fun _ => 0, fun _ => 0, fun _ => 0⟩)) k) ∧
      ¬ continuesIter (engineCosts [(⟨0, 0⟩ : Point)] 1 [[0]]
        (fun _ => ⟨fun _ => 0, fun _ => 0, fun _ => 0, fun _ => 0, fun _ => 0⟩)) 15) := by
  rintro ⟨-, hstop⟩
  apply hstop
  rw [engineCosts_one]
  unfold continuesIter
  rw [show (15 : ℕ) = 14 + 1 from rfl, iterState_const]
  norm_num [STOP_CONDITION_SAME_COUNT]

/-- C9. For N = 1 (`populationSize 1 = 1`, initial population `[[0]]`)
the engine returns best tour `[0]` of cost 0, the selection step yields zero
pairs for every draw (so crossover and mutation are applied to no tour), the
fitness normalization divides by the non-zero total `sqrt 2`, and the lazy
sequence terminates (the guard fails after 16 yields). -/
theorem c9_single_point_world (pt : Point) (pop0 : List (List ℕ)) (r : RandDraws)
    (rs : ℕ → RandDraws) (hinit : initPopOutcome 1 (populationSize 1) pop0) :
    selectionPairs [pt] (populationSize 1) pop0 r = [] ∧
    stepEngine [pt] (populationSize 1) pop0 r = ([[0]], [0]) ∧
    cost [pt] [0] = 0 ∧
    ((sortByFitness [pt] pop0).map (fitness [pt])).sum = Real.sqrt 2 ∧
    ((sortByFitness [pt] pop0).map (fitness [pt])).sum ≠ 0 ∧
    ¬ continuesIter (engineCosts [pt] (populationSize 1) pop0 rs)
        STOP_CONDITION_SAME_COUNT := by
  have hpopsize : populationSize 1 = 1 := by decide
  have hpop0 : pop0 = [[0]] := by
    obtain ⟨hnd, hlen, hall⟩ := hinit
    rw [hpopsize] at hlen
    cases pop0 with
    | nil => simp at hlen
    | cons t ts =>
      cases ts with
      | nil =>
        have hperm := hall t (by simp)
        unfold shuffleOutcome at hperm
        rw [show List.range 1 = [0] from rfl] at hperm
        rw [List.perm_singleton.mp hperm]
      | cons t2 ts2 => simp at hlen
  subst hpop0
  rw [hpopsize]
  have hfit : fitness [pt] [0] = Real.sqrt 2 := by
    unfold fitness
    rw [cost_short [pt] [0] (by norm_num)]
    simp
  have hsortone : sortByFitness [pt] [[0]] = [[0]] := by
    unfold sortByFitness
    exact List.mergeSort_singleton _
  refine ⟨selectionPairs_one pt [[0]] r, stepEngine_one pt r,
    cost_short [pt] [0] (by norm_num), ?_, ?_, ?_⟩
  · rw [hsortone]
    simp [hfit]
  · rw [hsortone]
    simp only [List.map_cons, List.map_nil, List.sum_cons, List.sum_nil, hfit, add_zero]
    exact ne_of_gt (Real.sqrt_pos.mpr (by norm_num))
  · rw [engineCosts_one pt rs]
    unfold continuesIter
    rw [show STOP_CONDITION_SAME_COUNT = 15 + 1 from rfl, iterState_const]
    norm_num [STOP_CONDITION_SAME_COUNT]

/-- Witness for C9 at the concrete one-point world. -/
theorem c9_single_point_world_witness :
    selectionPairs [(⟨0, 0⟩ : Point)] (populationSize 1) [[0]]
      ⟨fun _ => 0, fun _ => 0, fun _ => 0, fun _ => 0, fun _ => 0⟩ = [] ∧
    cost [(⟨0, 0⟩ : Point)] [0] = 0 :=
  ⟨(c9_single_point_world ⟨0, 0⟩ [[0]]
      ⟨fun _ => 0, fun _ => 0, fun _ => 0, fun _ => 0, fun _ => 0⟩
      (fun _ => ⟨fun _ => 0, fun _ => 0, fun _ => 0, fun _ => 0, fun _ => 0⟩)
      (by decide)).1,
   (c9_single_point_world ⟨0, 0⟩ [[0]]
      ⟨fun _ => 0, fun _ => 0, fun _ => 0, fun _ => 0, fun _ => 0⟩
      (fun _ => ⟨fun _ => 0, fun _ => 0, fun _ => 0, fun _ => 0, fun _ => 0⟩)
      (by decide)).2.2.1⟩

/-! ### C8: the World sampling loop -/

/-- The finite set of all points with both coordinates in
`[0, COORDINATE_MAX]` (the whole sampling space of `randint`). -/
@[irreducible] def coordBox : Finset Point :=
  (Finset.Icc (0 : ℤ) COORDINATE_MAX ×ˢ Finset.Icc (0 : ℤ) COORDINATE_MAX).map
    ⟨fun xy => ⟨xy.1, xy.2⟩, fun a b h => by
      rw [Point.mk.injEq] at h
      exact Prod.ext h.1 h.2⟩

/-- C8. The sampling loop of `World.__init__` has no retry cap and no
`CapacityExceeded` error: every point it can insert lies in the box of
`69421²` distinct coordinate pairs, so for
`points_count = 69421² + 1` the loop guard
`len(points_set) < points_count` still holds after every iteration — the
constructor loops forever instead of failing. -/
theorem c8_world_init_never_terminates (draws : ℕ → Point)
    (hdraws : ∀ k, 0 ≤ (draws k).x ∧ (draws k).x ≤ COORDINATE_MAX ∧
      0 ≤ (draws k).y ∧ (draws k).y ≤ COORDINATE_MAX) (k : ℕ) :
    (worldPointsAfter draws k).card < 69421 ^ 2 + 1 := by
  have hsub : worldPointsAfter draws k ⊆ coordBox := by
    induction k with
    | zero =>
      intro x hx
      simp [worldPointsAfter] at hx
    | succ k ih =>
      rw [worldPointsAfter]
      refine Finset.insert_subset ?_ ih
      obtain ⟨h1, h2, h3, h4⟩ := hdraws k
      rw [coordBox]
      rw [Finset.mem_map]
      refine ⟨((draws k).x, (draws k).y), ?_, rfl⟩
      simp only [Finset.mem_product, Finset.mem_Icc]
      exact ⟨⟨h1, h2⟩, h3, h4⟩
  calc (worldPointsAfter draws k).card
      ≤ coordBox.card := Finset.card_le_card hsub
    _ = 69421 ^ 2 := by
        rw [coordBox, Finset.card_map, Finset.card_product, Int.card_Icc]
        rw [show (COORDINATE_MAX + 1 - 0 : ℤ).toNat = 69421 from by
          rw [show (COORDINATE_MAX + 1 - 0 : ℤ) = 69421 from by
            norm_num [COORDINATE_MAX]]
          rfl]
        norm_num
    _ < 69421 ^ 2 + 1 := by omega

/-- Witness for C8: after three constant draws the accumulated set is still
below the requested `points_count = 69421² + 1`, i.e. the guard holds. -/
theorem c8_world_init_never_terminates_witness :
    (worldPointsAfter (fun _ => (⟨0, 0⟩ : Point)) 3).card < 69421 ^ 2 + 1 := by
  apply c8_world_init_never_terminates
  intro k
  refine ⟨by norm_num, by norm_num [COORDINATE_MAX], by norm_num,
    by norm_num [COORDINATE_MAX]⟩
